import Mathlib

/-!
Verification development for the `volley` directory watcher (`src/main.go`).

The program watches a source directory via fanotify, debounces write events
per top-level entry with one `time.Timer` per watch key stored in a global
map guarded by a mutex, and moves an entry to the destination directory once
its timer expires.

This file gives a shallow embedding of the program:

* Go strings are modelled as `List Char`; the helpers of `strings` and
  `path/filepath` used by the program (`HasPrefix`, `Split`, `Rel`, `Clean`,
  `Join`, `strings.Split`) are translated from the Go standard library
  (Unix rules, no volume names).  `filepath.Clean`'s inner word-copying
  loop is rendered as a tail recursion with an `inWord` flag so that the
  definition is structurally recursive and computable by the kernel.
* The per-notification dispatch of the main loop (lines 96-145 of
  `main.go`) is the pure function `handleEvent`; `none` models the process
  terminating through `log.Fatalf`.
* The concurrent behaviour of the timer registry (the global `timers` map,
  the event-handling goroutine and the timer callbacks, lines 18-40 and
  121-143) is an interleaved transition system `step` over `SysState`,
  with one action per atomic region of the Go code: the mutex-guarded map
  lookup, map insert and map delete are single atomic actions, while the
  unguarded `time.AfterFunc`/`Stop` creation and `timer.Reset` are separate
  actions, exactly as the lock is held (and released) in the source.
-/

/-! ## Go string primitives -/

/-- Go `strings.HasPrefix(s, p)`: `s` begins with `p`. -/
def goHasPfx : List Char → List Char → Bool
  | _, [] => true
  | [], _ :: _ => false
  | c :: s, d :: p => d = c && goHasPfx s p

/-- Go `strings.Split(s, "/")`: split around each separator; the result is
never empty, and `Split("", "/") = [""]`. -/
def splitSlash : List Char → List (List Char)
  | [] => [[]]
  | c :: rest =>
    if c = '/' then [] :: splitSlash rest
    else
      match splitSlash rest with
      | [] => [[c]]
      | p :: ps => (c :: p) :: ps

/-- Join char-list components with `'/'` separators (used to state results of
`filepath.Rel` and to build paths in specifications). -/
def joinSlash : List (List Char) → List Char
  | [] => []
  | [c] => c
  | c :: cs => c ++ '/' :: joinSlash cs

/-! ## `filepath.Clean` (Unix rules)

Translated from Go `path/filepath.Clean`.  The output buffer is kept in
reverse order (`out`); `dotdot` is the buffer length up to which `..`
backtracking may not erase, exactly as in the Go lazybuf version. -/

/-- The inner backtracking loop of `Clean`'s `..` case: after unconditionally
dropping the last written character, keep dropping while the buffer is longer
than `dotdot` and the character just dropped is not a separator. -/
def popLoop (dotdot : Nat) : Char → List Char → List Char
  | _, [] => []
  | dropped, c :: rest =>
    if rest.length + 1 > dotdot ∧ dropped ≠ '/' then popLoop dotdot c rest
    else c :: rest

/-- `Clean`'s `..`-backtracking (`case out.w > dotdot` in Go): drop the last
path element from the reversed buffer, stopping at `dotdot`. -/
def backtrack (dotdot : Nat) : List Char → List Char
  | [] => []
  | c :: rest => popLoop dotdot c rest

/-- The main loop of Go `filepath.Clean`.  `inWord = true` renders Go's inner
component-copying loop (`for ; r < n && path[r] != Separator; r++`): while in
a word, every non-separator character is appended to the reversed buffer. -/
def cleanLoop (rooted : Bool) : List Char → Bool → List Char → Nat → List Char
  | [], _, out, _ => out
  | c :: rest, true, out, dotdot =>
    if c = '/' then cleanLoop rooted rest false out dotdot
    else cleanLoop rooted rest true (c :: out) dotdot
  | c :: rest, false, out, dotdot =>
    if c = '/' then cleanLoop rooted rest false out dotdot
    else if c = '.' ∧ (rest = [] ∨ rest.head? = some '/') then
      cleanLoop rooted rest false out dotdot
    else if c = '.' ∧ rest.head? = some '.' ∧ (rest.tail = [] ∨ rest.tail.head? = some '/') then
      (match rest with
       | [] => out
       | _ :: rest2 =>
         if dotdot < out.length then cleanLoop rooted rest2 false (backtrack dotdot out) dotdot
         else if rooted then cleanLoop rooted rest2 false out dotdot
         else
           let out2 : List Char := '.' :: '.' :: (if out.length = 0 then out else '/' :: out)
           cleanLoop rooted rest2 false out2 out2.length)
    else
      let out2 : List Char :=
        if (rooted ∧ out.length ≠ 1) ∨ (rooted = false ∧ out.length ≠ 0) then '/' :: out else out
      cleanLoop rooted rest true (c :: out2) dotdot

/-- Go `filepath.Clean` for Unix paths. -/
def clean (path : List Char) : List Char :=
  if path = [] then ['.']
  else
    let rooted := path.head? = some '/'
    let start := if rooted then path.tail else path
    let out0 : List Char := if rooted then ['/'] else []
    let dd0 := if rooted then 1 else 0
    let out := cleanLoop rooted start false out0 dd0
    if out.length = 0 then ['.'] else out.reverse

/-! ## `filepath.Rel` (Unix rules) -/

/-- Path components of a cleaned path, as compared by `Rel`'s word-scanning
loop: a leading separator is skipped (both sides are then guaranteed equally
slashed), and `""` and `"/"` have no components. -/
def pathComponents (s : List Char) : List (List Char) :=
  let s2 := if s.head? = some '/' then s.tail else s
  if s2 = [] then [] else splitSlash s2

/-- The prefix-scanning loop of Go `filepath.Rel`: position both component
lists at their first differing elements. -/
def relScan : List (List Char) → List (List Char) → List (List Char) × List (List Char)
  | [], ts => ([], ts)
  | bs, [] => (bs, [])
  | b :: bs, t :: ts => if b = t then relScan bs ts else (b :: bs, t :: ts)

/-- Go `filepath.Rel(basepath, targpath)` for Unix paths (no volume names);
`none` models the error return. -/
def rel (basepath targpath : List Char) : Option (List Char) :=
  let base := clean basepath
  let targ := clean targpath
  if targ = base then some ['.']
  else
    let base2 := if base = ['.'] then [] else base
    let baseSlashed := base2.head? = some '/'
    let targSlashed := targ.head? = some '/'
    if baseSlashed ≠ targSlashed then none
    else
      let p := relScan (pathComponents base2) (pathComponents targ)
      if p.1.head? = some ['.', '.'] then none
      else if p.1 ≠ [] then
        some (joinSlash (List.replicate p.1.length ['.', '.'] ++ p.2))
      else some (joinSlash p.2)

/-- Go `filepath.Split(path)`: everything up to and including the final
separator, and the final name component. -/
def filepathSplit (path : List Char) : List Char × List Char :=
  let r := path.reverse
  ((r.dropWhile (fun c => c ≠ '/')).reverse, (r.takeWhile (fun c => c ≠ '/')).reverse)

/-- Go `filepath.Join(a, b)` for two elements: empty leading elements are
skipped, otherwise the elements are joined with a separator and cleaned. -/
def filepathJoin (a b : List Char) : List Char :=
  if a = [] ∧ b = [] then []
  else if a = [] then clean b
  else clean (a ++ '/' :: b)

/-! ## The Path Classifier (`getWatchComponent`, lines 150-159) -/

/-- `getWatchComponent(path, basePath)` from `main.go`: split off the final
name component, take the containing directory relative to `basePath`
(errors of `filepath.Rel` are discarded, leaving the empty string, exactly
as the Go code ignores the error), and return the bare filename for a direct
child of the root, otherwise the first segment of the relative directory. -/
def getWatchComponent (path basePath : List Char) : List Char :=
  let d := filepathSplit path
  let relPath := (rel basePath d.1).getD []
  if relPath = ['.'] then d.2
  else (splitSlash relPath).headD []

/-- The source and destination paths computed by the timer callback
(lines 28-29 of `main.go`): `filepath.Join(sourcePath, key)` and
`filepath.Join(destinationPath, key)`. -/
def callbackPaths (sourcePath destinationPath key : List Char) : List Char × List Char :=
  (filepathJoin sourcePath key, filepathJoin destinationPath key)

/-- Modelled from the spec: a path lies within the watched root directory
when it is the root itself or sits below it (`root ++ "/"` is a prefix).
This renders the spec's phrase "the path does not lie within the watched
root"; the code itself only checks `strings.HasPrefix`. -/
def liesWithinDir (root p : List Char) : Bool :=
  decide (p = root) || goHasPfx p (root ++ ['/'])

/-! ## The event-dispatch loop (one iteration, lines 96-145)

The registry effect of a qualifying notification is summarised here
sequentially: look up the key, create a stopped timer if absent, and reset
its deadline to `now + waitFor`.  In the sequential view this is exactly an
insert-or-overwrite of the key's deadline; the interleaved behaviour of the
same lines is modelled separately below. -/

/-- One fanotify notification as consumed by the main loop: `data == nil`,
the result of `data.GetPath()` (`none` = error), and the two mask queries
the code performs. -/
structure RawEvent where
  isNil : Bool
  pathRes : Option (List Char)
  maskCloseWrite : Bool
  maskModify : Bool
deriving DecidableEq

/-- Insert-or-overwrite in an association list, modelling Go map assignment
`timers[name] = timer`. -/
def mapUpd : List (List Char × Nat) → List Char → Nat → List (List Char × Nat)
  | [], q, v => [(q, v)]
  | (k, w) :: m, q, v => if k = q then (q, v) :: m else (k, w) :: mapUpd m q v

/-- Lookup in an association list, modelling Go map read `timers[name]`. -/
def mapGet : List (List Char × Nat) → List Char → Option Nat
  | [], _ => none
  | (k, v) :: m, q => if k = q then some v else mapGet m q

/-- Deletion from an association list, modelling Go `delete(timers, path)`. -/
def mapDel : List (List Char × Nat) → List Char → List (List Char × Nat)
  | [], _ => []
  | (k, w) :: m, q => if k = q then mapDel m q else (k, w) :: mapDel m q

/-- One iteration of the main event loop from the point where
`notify.GetEvent` has yielded `data` (lines 102-145 of `main.go`), with the
registry summarised as a map from watch key to armed deadline.  `none`
models `log.Fatalf` terminating the process (line 108); `some timers'`
models `continue`-ing to the next notification with the updated registry. -/
def handleEvent (sourcePath : List Char) (waitFor now : Nat)
    (timers : List (List Char × Nat)) (ev : RawEvent) :
    Option (List (List Char × Nat)) :=
  if ev.isNil then some timers
  else
    match ev.pathRes with
    | none => none
    | some path =>
      if goHasPfx path sourcePath = false then some timers
      else if ev.maskCloseWrite || ev.maskModify then
        some (mapUpd timers (getWatchComponent path sourcePath) (now + waitFor))
      else some timers


/-! ## The timer registry as an interleaved transition system

State of the program's shared data (lines 18-40 of `main.go`) together with
the control points of the single event-handling loop and of the spawned
timer callbacks.  `time.Timer` objects live on a heap indexed by allocation
order; a timer is `deadline = some d` when armed to call its function at
instant `d`, and `deadline = none` when stopped or after it has fired
(`Reset` re-arms it in either case, as for Go `AfterFunc` timers).
`AfterFunc(math.MaxInt64, ...)` immediately followed by `Stop()`
(lines 130-131) is modelled as allocating an unarmed timer: the sentinel
292-year deadline is unreachable in any run that fires it. -/

/-- A `time.Timer` created by `time.AfterFunc(_, func() { callback(name) })`:
the closure captures the watch key `name`. -/
structure TimerObj where
  key : List Char
  deadline : Option Nat
deriving DecidableEq

/-- Control point of a running `callback` goroutine (lines 26-39):
`atMove` before the `os.Rename`, `atDelete` between the rename and the
locked `delete(timers, path)`, `done` after it. -/
inductive CbPc where
  | atMove
  | atDelete
  | done
deriving DecidableEq

/-- One spawned timer callback: the captured key and its control point. -/
structure CbThread where
  key : List Char
  pc : CbPc
deriving DecidableEq

/-- Control point of the event-handling loop inside the qualifying-event
block (lines 121-143): after the locked lookup it holds either an existing
timer (`gotTimer`) or none (`noTimer`); creation and the locked insert are
separate points, and `timer.Reset(waitFor)` runs from `gotTimer` or
`inserted` - outside the lock, exactly as in the source. -/
inductive HandlerState where
  | idle
  | gotTimer (k : List Char) (tid : Nat)
  | noTimer (k : List Char)
  | created (k : List Char) (tid : Nat)
  | inserted (k : List Char) (tid : Nat)
deriving DecidableEq

/-- Lookup in the timer heap by allocation id. -/
def heapGet : List (Nat × TimerObj) → Nat → Option TimerObj
  | [], _ => none
  | (i, o) :: h, j => if i = j then some o else heapGet h j

/-- Update in the timer heap by allocation id. -/
def heapSet : List (Nat × TimerObj) → Nat → TimerObj → List (Nat × TimerObj)
  | [], _, _ => []
  | (i, o) :: h, j, o2 => if i = j then (j, o2) :: h else (i, o) :: heapSet h j o2

/-- Global state: the clock, the `timers` map (watch key to timer id), the
heap of timer objects, the allocation counter, the event-loop control point,
the running callbacks, the log of attempted relocations `(key, time,
success)` and the log of qualifying-event arrivals `(key, time)`. -/
structure SysState where
  now : Nat
  timers : List (List Char × Nat)
  objs : List (Nat × TimerObj)
  nextId : Nat
  handler : HandlerState
  cbs : List CbThread
  moves : List (List Char × Nat × Bool)
  arrivals : List (List Char × Nat)
deriving DecidableEq

/-- The initial state: empty registry, clock zero, loop idle. -/
def initState : SysState :=
  { now := 0, timers := [], objs := [], nextId := 0, handler := .idle,
    cbs := [], moves := [], arrivals := [] }

/-- Atomic actions of the interleaved system.  `arrive k` is the handling of
a qualifying notification classified to key `k` up to and including the
mutex-guarded map lookup (lines 121-125); `create` is
`time.AfterFunc` + `Stop` (lines 130-131); `insert` is the locked
`timers[name] = timer` (lines 133-135); `reset` is `timer.Reset(waitFor)`
(line 142), outside the lock; `fire tid` is the runtime delivering an armed
timer whose deadline has been reached, spawning its callback; `cbMove i ok`
is the callback's `os.Rename` with outcome `ok` (failure only printed,
lines 31-34); `cbDelete i` is the callback's locked
`delete(timers, path)` (lines 36-38). -/
inductive Act where
  | tick
  | arrive (k : List Char)
  | create
  | insert
  | reset
  | fire (tid : Nat)
  | cbMove (i : Nat) (ok : Bool)
  | cbDelete (i : Nat)

/-- One interleaved step; `none` when the action is not enabled in `s`. -/
def step (waitFor : Nat) (s : SysState) : Act → Option SysState
  | .tick => some { s with now := s.now + 1 }
  | .arrive k =>
    match s.handler with
    | .idle =>
      let s1 := { s with arrivals := (k, s.now) :: s.arrivals }
      match mapGet s.timers k with
      | some tid => some { s1 with handler := .gotTimer k tid }
      | none => some { s1 with handler := .noTimer k }
    | _ => none
  | .create =>
    match s.handler with
    | .noTimer k =>
      some { s with objs := (s.nextId, ⟨k, none⟩) :: s.objs, nextId := s.nextId + 1,
                    handler := .created k s.nextId }
    | _ => none
  | .insert =>
    match s.handler with
    | .created k tid =>
      some { s with timers := mapUpd s.timers k tid, handler := .inserted k tid }
    | _ => none
  | .reset =>
    match s.handler with
    | .gotTimer _ tid =>
      (heapGet s.objs tid).map fun o =>
        { s with objs := heapSet s.objs tid ⟨o.key, some (s.now + waitFor)⟩, handler := .idle }
    | .inserted _ tid =>
      (heapGet s.objs tid).map fun o =>
        { s with objs := heapSet s.objs tid ⟨o.key, some (s.now + waitFor)⟩, handler := .idle }
    | _ => none
  | .fire tid =>
    match heapGet s.objs tid with
    | some o =>
      match o.deadline with
      | some d =>
        if d ≤ s.now then
          some { s with objs := heapSet s.objs tid ⟨o.key, none⟩,
                        cbs := s.cbs ++ [⟨o.key, .atMove⟩] }
        else none
      | none => none
    | none => none
  | .cbMove i ok =>
    match s.cbs.get? i with
    | some c =>
      if c.pc = .atMove then
        some { s with moves := (c.key, s.now, ok) :: s.moves,
                      cbs := s.cbs.set i ⟨c.key, .atDelete⟩ }
      else none
    | none => none
  | .cbDelete i =>
    match s.cbs.get? i with
    | some c =>
      if c.pc = .atDelete then
        some { s with timers := mapDel s.timers c.key, cbs := s.cbs.set i ⟨c.key, .done⟩ }
      else none
    | none => none

/-- Run a list of actions from the initial state; the head of the list is
the most recent action (so `runA w (a :: as)` first runs `as`). -/
def runA (waitFor : Nat) : List Act → Option SysState
  | [] => some initState
  | a :: as => (runA waitFor as).bind fun s => step waitFor s a

/-! ## Helper lemmas -/

/-- Setting the element previously read at index `i` makes `get?` return the
new element. -/
theorem get_set_of_get {α : Type} (l : List α) (i : Nat) (c x : α)
    (h : l.get? i = some c) : (l.set i x).get? i = some x := by
  induction l generalizing i with
  | nil => simp at h
  | cons a l ih =>
    cases i with
    | zero => rfl
    | succ n => simpa using ih n (by simpa using h)

/-! ## C3: path-resolution failure -/

/-- C3, counterexample.  The claim says a notification whose changed path
fails to resolve is dropped and the event loop continues (`some timers`
in the model); in the code (line 108 of `main.go`) `log.Fatalf` terminates
the process, which the model renders as `none`.  At the concrete input
below - a non-nil notification whose `GetPath` errors - the iteration
result is `none`, not a continuation. -/
theorem c3_resolution_failure_is_fatal_cex :
    handleEvent "/src".data 2 0 [] ⟨false, none, true, true⟩ = none := by decide

/-- C3, amended: for every non-nil notification whose path resolution fails,
the process terminates via `log.Fatalf` (result `none`); the notification is
not merely dropped and the loop does not continue. -/
theorem c3_resolution_failure_is_fatal (src : List Char) (w now : Nat)
    (tm : List (List Char × Nat)) (ev : RawEvent)
    (h1 : ev.isNil = false) (h2 : ev.pathRes = none) :
    handleEvent src w now tm ev = none := by
  simp [handleEvent, h1, h2]

/-- Witness for `c3_resolution_failure_is_fatal` at a concrete notification. -/
theorem c3_resolution_failure_is_fatal_witness :
    handleEvent "/src".data 2 0 [] ⟨false, none, false, true⟩ = none :=
  c3_resolution_failure_is_fatal "/src".data 2 0 [] ⟨false, none, false, true⟩ rfl rfl

/-! ## C4: out-of-root filtering -/

/-- C4, counterexample.  The claim says every notification whose resolved
path does not lie within the watched root directory is discarded before
classification, with no timer created.  The path `/srcextra/file` does not
lie within the root `/src`, yet the code's `strings.HasPrefix` filter
(line 112) accepts it and a timer keyed `".."` is created. -/
theorem c4_out_of_root_filter_cex :
    liesWithinDir "/src".data "/srcextra/file".data = false ∧
    handleEvent "/src".data 2 0 [] ⟨false, some "/srcextra/file".data, false, true⟩ =
      some [(['.', '.'], 2)] ∧
    ([(['.', '.'], 2)] : List (List Char × Nat)) ≠ [] := by decide

/-- C4, amended: the discard decision is a string-prefix check, not directory
containment - every notification whose resolved path does not have the
watched root as a string prefix is discarded before classification, with no
timer created or reset (paths such as `/srcextra/file` under root `/src`
pass the filter instead). -/
theorem c4_discard_without_string_pfx (src : List Char) (w now : Nat)
    (tm : List (List Char × Nat)) (ev : RawEvent) (p : List Char)
    (h1 : ev.isNil = false) (h2 : ev.pathRes = some p)
    (h3 : goHasPfx p src = false) :
    handleEvent src w now tm ev = some tm := by
  simp [handleEvent, h1, h2, h3]

/-- Witness for `c4_discard_without_string_pfx`: an event for `/elsewhere/x`
with root `/src` leaves the registry untouched. -/
theorem c4_discard_without_string_pfx_witness :
    handleEvent "/src".data 2 0 [(['a'], 7)] ⟨false, some "/elsewhere/x".data, true, false⟩ =
      some [(['a'], 7)] :=
  c4_discard_without_string_pfx "/src".data 2 0 [(['a'], 7)]
    ⟨false, some "/elsewhere/x".data, true, false⟩ "/elsewhere/x".data rfl rfl (by decide)

/-! ## C8: non-qualifying events -/

/-- C8: a notification whose kind matches neither `FAN_CLOSE_WRITE` nor
`FAN_MODIFY` never creates or resets a timer - whenever the loop iteration
continues, the registry is returned unchanged (for every key: the whole map
is untouched). -/
theorem c8_nonqualifying_events_ignored (src : List Char) (w now : Nat)
    (tm tm2 : List (List Char × Nat)) (ev : RawEvent)
    (h1 : ev.maskCloseWrite = false) (h2 : ev.maskModify = false)
    (h3 : handleEvent src w now tm ev = some tm2) :
    tm2 = tm := by
  unfold handleEvent at h3
  split at h3
  · exact ((Option.some.injEq _ _).mp h3).symm
  · split at h3
    · exact absurd h3 (by simp)
    · rw [h1, h2] at h3
      split at h3
      · exact ((Option.some.injEq _ _).mp h3).symm
      · simp at h3
        exact h3.symm

/-- Witness for `c8_nonqualifying_events_ignored`: a metadata-only event for
`/src/a` leaves a registry holding one timer unchanged. -/
theorem c8_nonqualifying_events_ignored_witness :
    ([(['a'], 5)] : List (List Char × Nat)) = [(['a'], 5)] :=
  c8_nonqualifying_events_ignored "/src".data 2 0 [(['a'], 5)] [(['a'], 5)]
    ⟨false, some "/src/a".data, false, false⟩ rfl rfl (by decide)

/-! ## C9: relocation failure is contained -/

/-- C9: when the relocation for a key fails (`os.Rename` returns an error,
modelled by `cbMove i false`), the failure is only reported (recorded in the
move log with outcome `false`) and is not fatal: the step yields a successor
state, the clock, the event-loop control point, the registry and every timer
object are untouched by the failing move, and the callback still proceeds to
its unconditional `delete(timers, path)` - the key's entry is removed, never
rolled back, and no new timer is allocated (no retry is scheduled). -/
theorem c9_relocation_failure_contained (w : Nat) (s : SysState) (i : Nat)
    (c : CbThread) (hc : s.cbs.get? i = some c) (hpc : c.pc = .atMove) :
    ∃ s1, step w s (.cbMove i false) = some s1 ∧
      s1.moves = (c.key, s.now, false) :: s.moves ∧
      s1.timers = s.timers ∧ s1.objs = s.objs ∧ s1.handler = s.handler ∧
      s1.nextId = s.nextId ∧ s1.now = s.now ∧
      ∃ s2, step w s1 (.cbDelete i) = some s2 ∧
        s2.timers = mapDel s.timers c.key ∧ s2.objs = s.objs ∧
        s2.nextId = s.nextId ∧ s2.handler = s.handler ∧
        s2.moves = (c.key, s.now, false) :: s.moves ∧
        s2.cbs = (s.cbs.set i ⟨c.key, .atDelete⟩).set i ⟨c.key, .done⟩ := by
  have h1 : step w s (.cbMove i false) =
      some { s with moves := (c.key, s.now, false) :: s.moves,
                    cbs := s.cbs.set i ⟨c.key, .atDelete⟩ } := by
    simp only [step, hc, hpc]
    rfl
  refine ⟨_, h1, rfl, rfl, rfl, rfl, rfl, rfl, ?_⟩
  have h2 : step w { s with moves := (c.key, s.now, false) :: s.moves,
                            cbs := s.cbs.set i ⟨c.key, .atDelete⟩ } (.cbDelete i) =
      some { s with timers := mapDel s.timers c.key,
                    moves := (c.key, s.now, false) :: s.moves,
                    cbs := (s.cbs.set i ⟨c.key, .atDelete⟩).set i ⟨c.key, .done⟩ } := by
    simp only [step, get_set_of_get s.cbs i c ⟨c.key, .atDelete⟩ hc]
    rfl
  exact ⟨_, h2, rfl, rfl, rfl, rfl, rfl, rfl⟩

/-- Witness for `c9_relocation_failure_contained` at a concrete state with
one armed-and-fired callback about to move key `a`. -/
theorem c9_relocation_failure_contained_witness :
    ∃ s1, step 2 { now := 5, timers := [(['a'], 0)], objs := [(0, ⟨['a'], none⟩)],
                   nextId := 1, handler := .idle, cbs := [⟨['a'], .atMove⟩],
                   moves := [], arrivals := [] } (.cbMove 0 false) = some s1 ∧
      s1.moves = (['a'], 5, false) :: [] ∧
      s1.timers = [(['a'], 0)] ∧ s1.objs = [(0, ⟨['a'], none⟩)] ∧
      s1.handler = .idle ∧ s1.nextId = 1 ∧ s1.now = 5 ∧
      ∃ s2, step 2 s1 (.cbDelete 0) = some s2 ∧
        s2.timers = mapDel [(['a'], 0)] ['a'] ∧ s2.objs = [(0, ⟨['a'], none⟩)] ∧
        s2.nextId = 1 ∧ s2.handler = .idle ∧
        s2.moves = (['a'], 5, false) :: [] ∧
        s2.cbs = (([⟨['a'], .atMove⟩] : List CbThread).set 0 ⟨['a'], .atDelete⟩).set 0
          ⟨['a'], .done⟩ :=
  c9_relocation_failure_contained 2 _ 0 ⟨['a'], .atMove⟩ rfl rfl

/-! ## C10: prefix-matching paths outside the root escape the root -/

/-- C10: for the changed path `/srcextra/file` with watched root `/src` -
a path that has the root as a string prefix but does not lie within the
root directory - the dispatch filter accepts the notification,
`getWatchComponent` classifies it to the watch key `".."`, a timer keyed
`".."` is armed in the registry, and the callback paths for that key are
`filepath.Join("/src", "..") = "/"` and `filepath.Join("/dst", "..") = "/"`:
the rename source lies outside the watched root. -/
theorem c10_dotdot_key_escapes_root :
    goHasPfx "/srcextra/file".data "/src".data = true ∧
    liesWithinDir "/src".data "/srcextra/file".data = false ∧
    getWatchComponent "/srcextra/file".data "/src".data = ['.', '.'] ∧
    handleEvent "/src".data 2 0 [] ⟨false, some "/srcextra/file".data, false, true⟩ =
      some [(['.', '.'], 2)] ∧
    callbackPaths "/src".data "/dst".data ['.', '.'] = (['/'], ['/']) ∧
    liesWithinDir "/src".data ['/'] = false := by decide

/-! ## Registry-map key lemmas -/

/-- The keys currently present in the registry map. -/
def tmKeys (m : List (List Char × Nat)) : List (List Char) := m.map Prod.fst

/-- Membership in the keys after a map assignment. -/
theorem mem_tmKeys_mapUpd (m : List (List Char × Nat)) (q : List Char) (v : Nat)
    (x : List Char) : x ∈ tmKeys (mapUpd m q v) ↔ x ∈ tmKeys m ∨ x = q := by
  induction m with
  | nil => simp [mapUpd, tmKeys]
  | cons a m ih =>
    obtain ⟨k, w⟩ := a
    by_cases h : k = q
    · subst h
      simp [mapUpd, tmKeys]
      tauto
    · simp [mapUpd, h, tmKeys] at ih ⊢
      tauto

/-- Map assignment preserves distinctness of the keys. -/
theorem tmKeys_mapUpd_nodup (m : List (List Char × Nat)) (q : List Char) (v : Nat)
    (h : (tmKeys m).Nodup) : (tmKeys (mapUpd m q v)).Nodup := by
  induction m with
  | nil => simp [mapUpd, tmKeys]
  | cons a m ih =>
    obtain ⟨k, w⟩ := a
    simp only [tmKeys, List.map_cons, List.nodup_cons] at h
    by_cases hk : k = q
    · subst hk
      simpa [mapUpd, tmKeys] using h
    · simp only [mapUpd, hk, if_neg, ite_false, tmKeys, List.map_cons, List.nodup_cons]
      refine ⟨fun hmem => ?_, ih h.2⟩
      rcases (mem_tmKeys_mapUpd m q v k).mp hmem with h1 | h1
      · exact h.1 h1
      · exact hk h1

/-- Map deletion yields a sublist of the original map. -/
theorem mapDel_sublist (m : List (List Char × Nat)) (q : List Char) :
    List.Sublist (mapDel m q) m := by
  induction m with
  | nil => simp [mapDel]
  | cons a m ih =>
    obtain ⟨k, w⟩ := a
    by_cases h : k = q
    · simpa [mapDel, h] using ih.cons (k, w)
    · simpa [mapDel, h] using ih.cons₂ (k, w)

/-- Map deletion preserves distinctness of the keys. -/
theorem tmKeys_mapDel_nodup (m : List (List Char × Nat)) (q : List Char)
    (h : (tmKeys m).Nodup) : (tmKeys (mapDel m q)).Nodup :=
  h.sublist ((mapDel_sublist m q).map Prod.fst)

/-! ## Invariant preservation for the interleaved system -/

/-- Every single step preserves distinctness of registry keys: the only
mutators of the map are the assignment in `insert` and the deletion in
`cbDelete`. -/
theorem step_preserves_nodup (w : Nat) (s s2 : SysState) (a : Act)
    (h : step w s a = some s2) (hs : (tmKeys s.timers).Nodup) :
    (tmKeys s2.timers).Nodup := by
  cases a with
  | tick =>
    simp only [step, Option.some.injEq] at h
    subst h; exact hs
  | arrive k =>
    simp only [step] at h
    split at h
    · split at h <;> (simp only [Option.some.injEq] at h; subst h; exact hs)
    · simp at h
  | create =>
    simp only [step] at h
    split at h
    · simp only [Option.some.injEq] at h; subst h; exact hs
    · simp at h
  | insert =>
    simp only [step] at h
    split at h
    · simp only [Option.some.injEq] at h; subst h
      exact tmKeys_mapUpd_nodup _ _ _ hs
    · simp at h
  | reset =>
    simp only [step] at h
    split at h
    · rw [Option.map_eq_some'] at h
      obtain ⟨o, _, h2⟩ := h
      subst h2; exact hs
    · rw [Option.map_eq_some'] at h
      obtain ⟨o, _, h2⟩ := h
      subst h2; exact hs
    · simp at h
  | fire tid =>
    simp only [step] at h
    split at h
    · split at h
      · split at h
        · simp only [Option.some.injEq] at h; subst h; exact hs
        · simp at h
      · simp at h
    · simp at h
  | cbMove i ok =>
    simp only [step] at h
    split at h
    · split at h
      · simp only [Option.some.injEq] at h; subst h; exact hs
      · simp at h
    · simp at h
  | cbDelete i =>
    simp only [step] at h
    split at h
    · split at h
      · simp only [Option.some.injEq] at h; subst h
        exact tmKeys_mapDel_nodup _ _ hs
      · simp at h
    · simp at h

/-! ## C7: single entry per key -/

/-- C7: in every reachable state of the interleaved system, the registry's
keys are pairwise distinct - the `timers` map never holds two simultaneous
entries for the same watch key (the model's association list is kept with
unique keys exactly because Go map assignment and deletion are). -/
theorem c7_single_entry_per_key (w : Nat) (acts : List Act) (s : SysState)
    (h : runA w acts = some s) : (tmKeys s.timers).Nodup := by
  induction acts generalizing s with
  | nil =>
    simp only [runA, Option.some.injEq] at h
    subst h
    simp [initState, tmKeys]
  | cons a as ih =>
    simp only [runA, Option.bind_eq_some] at h
    obtain ⟨s0, h0, hstep⟩ := h
    exact step_preserves_nodup w s0 s a hstep (ih s0 h0)

/-- Witness for `c7_single_entry_per_key` on a run that creates, arms,
fires and re-arms a timer for key `a`. -/
theorem c7_single_entry_per_key_witness :
    (tmKeys ({ now := 2, timers := [(['a'], 0)], objs := [(0, ⟨['a'], none⟩)],
               nextId := 1, handler := .idle, cbs := [⟨['a'], .atDelete⟩],
               moves := [(['a'], 2, true)],
               arrivals := [(['a'], 0)] } : SysState).timers).Nodup :=
  c7_single_entry_per_key 2
    [.cbMove 0 true, .fire 0, .tick, .tick, .reset, .insert, .create, .arrive ['a']]
    _ (by decide)

/-! ## C2: order of removal and relocation -/

/-- Every single step preserves the property that a callback which has
passed its `os.Rename` (control point `atDelete` or `done`) has its
relocation attempt recorded: the rename of a key happens no later than the
deletion of that key's registry entry. -/
theorem step_preserves_moved (w : Nat) (s s2 : SysState) (a : Act)
    (h : step w s a = some s2)
    (hs : ∀ c ∈ s.cbs, c.pc ≠ .atMove → ∃ t ok, (c.key, t, ok) ∈ s.moves) :
    ∀ c ∈ s2.cbs, c.pc ≠ .atMove → ∃ t ok, (c.key, t, ok) ∈ s2.moves := by
  cases a with
  | tick =>
    simp only [step, Option.some.injEq] at h
    subst h; exact hs
  | arrive k =>
    simp only [step] at h
    split at h
    · split at h <;> (simp only [Option.some.injEq] at h; subst h; exact hs)
    · simp at h
  | create =>
    simp only [step] at h
    split at h
    · simp only [Option.some.injEq] at h; subst h; exact hs
    · simp at h
  | insert =>
    simp only [step] at h
    split at h
    · simp only [Option.some.injEq] at h; subst h; exact hs
    · simp at h
  | reset =>
    simp only [step] at h
    split at h
    · rw [Option.map_eq_some'] at h
      obtain ⟨o, _, h2⟩ := h
      subst h2; exact hs
    · rw [Option.map_eq_some'] at h
      obtain ⟨o, _, h2⟩ := h
      subst h2; exact hs
    · simp at h
  | fire tid =>
    simp only [step] at h
    split at h
    next o heq =>
      split at h
      · split at h
        · simp only [Option.some.injEq] at h; subst h
          intro c hc hpc
          rcases List.mem_append.mp hc with h1 | h1
          · exact hs c h1 hpc
          · simp only [List.mem_singleton] at h1
            subst h1
            exact absurd rfl hpc
        · simp at h
      · simp at h
    next => simp at h
  | cbMove i ok =>
    simp only [step] at h
    split at h
    next c0 heq =>
      split at h
      · simp only [Option.some.injEq] at h; subst h
        intro c hc hpc
        rcases List.mem_or_eq_of_mem_set hc with h1 | h1
        · obtain ⟨t, ok2, hm⟩ := hs c h1 hpc
          exact ⟨t, ok2, List.mem_cons_of_mem _ hm⟩
        · subst h1
          exact ⟨s.now, ok, List.mem_cons_self _ _⟩
      · simp at h
    next => simp at h
  | cbDelete i =>
    simp only [step] at h
    split at h
    next c0 heq =>
      split at h
      next hpc0 =>
        simp only [Option.some.injEq] at h; subst h
        intro c hc hpc
        rcases List.mem_or_eq_of_mem_set hc with h1 | h1
        · exact hs c h1 hpc
        · subst h1
          exact hs c0 (List.get?_mem heq) (by simp [hpc0])
      · simp at h
    next => simp at h

/-- C2, counterexample.  The claim says the key is removed from the registry
before relocation begins, so a fresh event during the in-flight move creates
a new independent timer.  In the code (lines 26-39) `os.Rename` runs first
and `delete(timers, path)` only afterwards: in the trace below the callback
for key `a` has already recorded its move at t=2 while `a` is still mapped
to timer 0, and a fresh qualifying event arriving during the in-flight move
observes that existing timer (`gotTimer`, not `noTimer`) - no new timer is
allocated (`nextId` is still 1). -/
theorem c2_removed_before_move_cex :
    runA 2 [.arrive ['a'], .cbMove 0 true, .fire 0, .tick, .tick,
            .reset, .insert, .create, .arrive ['a']] =
      some { now := 2, timers := [(['a'], 0)], objs := [(0, ⟨['a'], none⟩)],
             nextId := 1, handler := .gotTimer ['a'] 0, cbs := [⟨['a'], .atDelete⟩],
             moves := [(['a'], 2, true)], arrivals := [(['a'], 2), (['a'], 0)] } ∧
    mapGet [(['a'], 0)] ['a'] = some 0 := by decide

/-- C2, amended: the key is removed from the registry only after the
relocation attempt - in every reachable state, every callback that has
reached its locked `delete(timers, path)` (or finished) has already recorded
its rename attempt; consequently a fresh qualifying event arriving during
the in-flight move finds the fired timer still registered and resets it
instead of creating a new independent timer. -/
theorem c2_removal_after_relocation (w : Nat) (acts : List Act) (s : SysState)
    (h : runA w acts = some s) :
    ∀ c ∈ s.cbs, c.pc ≠ .atMove → ∃ t ok, (c.key, t, ok) ∈ s.moves := by
  induction acts generalizing s with
  | nil =>
    simp only [runA, Option.some.injEq] at h
    subst h
    simp [initState]
  | cons a as ih =>
    simp only [runA, Option.bind_eq_some] at h
    obtain ⟨s0, h0, hstep⟩ := h
    exact step_preserves_moved w s0 s a hstep (ih s0 h0)

/-- Witness for `c2_removal_after_relocation` on a run whose callback for
key `a` sits between its rename and its registry deletion. -/
theorem c2_removal_after_relocation_witness :
    ∃ t ok, ((['a'], t, ok) ∈
      ({ now := 2, timers := [(['a'], 0)], objs := [(0, ⟨['a'], none⟩)],
         nextId := 1, handler := .idle, cbs := [⟨['a'], .atDelete⟩],
         moves := [(['a'], 2, true)], arrivals := [(['a'], 0)] } : SysState).moves) :=
  c2_removal_after_relocation 2
    [.cbMove 0 true, .fire 0, .tick, .tick, .reset, .insert, .create, .arrive ['a']]
    _ (by decide) ⟨['a'], .atDelete⟩ (by decide) (by decide)

/-! ## C1: the lost-reset race is not excluded -/

/-- C1: the claim says the mutex covers the whole
check-exists-and-either-create-or-reset sequence, so that the interleaving
"event handler observes an existing timer; the timer fires and its callback
removes the entry; the stale reset is then applied" is impossible.  In the
code the mutex is released between the lookup (lines 123-125) and
`timer.Reset` (line 142), and the trace below realises exactly that
interleaving: after it, the registry has no entry for key `a` while timer 0
- retired by its own callback - has been re-armed to fire at t=4 by the
stale reset.  The final state exhibits the race the claim rules out. -/
theorem c1_lost_reset_race :
    runA 2 [.reset, .cbDelete 0, .cbMove 0 true, .fire 0, .arrive ['a'],
            .tick, .tick, .reset, .insert, .create, .arrive ['a']] =
      some { now := 2, timers := [], objs := [(0, ⟨['a'], some 4⟩)], nextId := 1,
             handler := .idle, cbs := [⟨['a'], .done⟩],
             moves := [(['a'], 2, true)], arrivals := [(['a'], 2), (['a'], 0)] } ∧
    mapGet [] ['a'] = none ∧
    heapGet [(0, ⟨['a'], some 4⟩)] 0 = some ⟨['a'], some 4⟩ := by decide

/-! ## C6: a premature relocation is reachable -/

/-- C6: the claim says that after an event for key `K` at time `T` no
relocation of `K` occurs strictly before `T` plus the quiescence duration.
With `waitFor = 2`, the trace below arms `a` at t=0 (deadline 2); a second
qualifying event for `a` arrives at t=1 and its handler performs the locked
lookup, but before its unlocked `timer.Reset` runs, the old timer fires at
t=2 and its callback records the relocation: the move of `a` happens at
t=2, strictly before 1 + 2 = 3. -/
theorem c6_premature_relocation :
    runA 2 [.cbMove 0 true, .fire 0, .tick, .arrive ['a'], .tick,
            .reset, .insert, .create, .arrive ['a']] =
      some { now := 2, timers := [(['a'], 0)], objs := [(0, ⟨['a'], none⟩)],
             nextId := 1, handler := .gotTimer ['a'] 0, cbs := [⟨['a'], .atDelete⟩],
             moves := [(['a'], 2, true)], arrivals := [(['a'], 1), (['a'], 0)] } ∧
    2 < 1 + 2 := by decide

/-! ## C5: the classifier on well-formed paths

`absPath cs` builds the absolute path with components `cs`; a component is
`goodComp` when it is a nonempty, separator-free name that is not `"."` or
`".."` - i.e. the path is in cleaned form, the shape every real file path
under a cleaned absolute root has. -/

/-- A well-formed (cleaned) path component. -/
def goodComp (c : List Char) : Prop :=
  c ≠ [] ∧ '/' ∉ c ∧ c ≠ ['.'] ∧ c ≠ ['.', '.']

instance (c : List Char) : Decidable (goodComp c) := by
  unfold goodComp; infer_instance

/-- The absolute path with the given components (`absPath [] = "/"`). -/
def absPath (cs : List (List Char)) : List Char := '/' :: joinSlash cs

/-- `takeWhile` stops exactly at the first separator. -/
theorem takeWhile_word (a b : List Char) (ha : '/' ∉ a) :
    (a ++ '/' :: b).takeWhile (fun c => c ≠ '/') = a := by
  induction a with
  | nil => rw [List.nil_append, List.takeWhile_cons_of_neg (by simp)]
  | cons x a ih =>
    simp only [List.mem_cons, not_or] at ha
    have hx : x ≠ '/' := fun h => ha.1 h.symm
    rw [List.cons_append, List.takeWhile_cons_of_pos (by simpa using hx), ih ha.2]

/-- `dropWhile` drops exactly up to the first separator. -/
theorem dropWhile_word (a b : List Char) (ha : '/' ∉ a) :
    (a ++ '/' :: b).dropWhile (fun c => c ≠ '/') = '/' :: b := by
  induction a with
  | nil => rw [List.nil_append, List.dropWhile_cons_of_neg (by simp)]
  | cons x a ih =>
    simp only [List.mem_cons, not_or] at ha
    have hx : x ≠ '/' := fun h => ha.1 h.symm
    rw [List.cons_append, List.dropWhile_cons_of_pos (by simpa using hx), ih ha.2]

/-- Splitting a path of the form `dir ++ "/" ++ name` at its last separator. -/
theorem filepathSplit_app (xs f : List Char) (hf : '/' ∉ f) :
    filepathSplit (xs ++ '/' :: f) = (xs ++ ['/'], f) := by
  have hfr : '/' ∉ f.reverse := by simpa using hf
  have hr : (xs ++ '/' :: f).reverse = f.reverse ++ '/' :: xs.reverse := by
    simp
  simp only [filepathSplit]
  rw [hr, takeWhile_word _ _ hfr, dropWhile_word _ _ hfr]
  simp

/-- A separator-free string splits into itself. -/
theorem splitSlash_nosep (c : List Char) (h : '/' ∉ c) : splitSlash c = [c] := by
  induction c with
  | nil => rfl
  | cons x c ih =>
    simp only [List.mem_cons, not_or] at h
    have hx : ¬ (x = '/') := fun hh => h.1 hh.symm
    rw [splitSlash, if_neg hx, ih h.2]

/-- Splitting after the first separator-free component. -/
theorem splitSlash_app (c r : List Char) (h : '/' ∉ c) :
    splitSlash (c ++ '/' :: r) = c :: splitSlash r := by
  induction c with
  | nil => simp [splitSlash]
  | cons x c ih =>
    simp only [List.mem_cons, not_or] at h
    have hx : ¬ (x = '/') := fun hh => h.1 hh.symm
    rw [List.cons_append, splitSlash, if_neg hx, ih h.2]

/-- `joinSlash` on a cons with a nonempty tail. -/
theorem joinSlash_cons (c : List Char) (cs : List (List Char)) (h : cs ≠ []) :
    joinSlash (c :: cs) = c ++ '/' :: joinSlash cs := by
  cases cs with
  | nil => exact absurd rfl h
  | cons d ds => rfl

/-- `joinSlash` of a nonempty list of nonempty components is nonempty. -/
theorem joinSlash_ne_nil (c : List Char) (cs : List (List Char)) (hc : c ≠ []) :
    joinSlash (c :: cs) ≠ [] := by
  cases cs with
  | nil => simpa [joinSlash]
  | cons d ds =>
    rw [joinSlash_cons _ _ (by simp)]
    cases c with
    | nil => exact absurd rfl hc
    | cons x c => simp

/-- Appending a final component to a nonempty `joinSlash`. -/
theorem joinSlash_snoc (cs : List (List Char)) (y : List Char) (h : cs ≠ []) :
    joinSlash (cs ++ [y]) = joinSlash cs ++ '/' :: y := by
  induction cs with
  | nil => exact absurd rfl h
  | cons c cs ih =>
    cases cs with
    | nil => rfl
    | cons d ds =>
      rw [List.cons_append, joinSlash_cons _ _ (by simp),
          joinSlash_cons _ _ (by simp), ih (by simp)]
      simp

/-- Splitting inverts joining for separator-free components. -/
theorem splitSlash_joinSlash (cs : List (List Char)) (hcs : ∀ c ∈ cs, '/' ∉ c)
    (hne : cs ≠ []) : splitSlash (joinSlash cs) = cs := by
  induction cs with
  | nil => exact absurd rfl hne
  | cons c cs ih =>
    cases cs with
    | nil => simpa [joinSlash] using splitSlash_nosep c (hcs c (by simp))
    | cons d ds =>
      rw [joinSlash_cons _ _ (by simp), splitSlash_app _ _ (hcs c (by simp)),
          ih (fun x hx => hcs x (by simp [hx])) (by simp)]

/-- In word-copying mode, a separator-free word is appended (reversed) to
the buffer; at the end of input the buffer is returned. -/
theorem cleanLoop_inWord_end (r : Bool) (w out : List Char) (dd : Nat)
    (hw : '/' ∉ w) : cleanLoop r w true out dd = w.reverse ++ out := by
  induction w generalizing out with
  | nil => simp [cleanLoop]
  | cons x w ih =>
    simp only [List.mem_cons, not_or] at hw
    have hx : ¬ (x = '/') := fun h => hw.1 h.symm
    rw [cleanLoop, if_neg hx, ih _ hw.2]
    simp

/-- In word-copying mode, a separator ends the word: the word is appended
(reversed) and scanning continues at word start. -/
theorem cleanLoop_inWord_sep (r : Bool) (w zs out : List Char) (dd : Nat)
    (hw : '/' ∉ w) :
    cleanLoop r (w ++ '/' :: zs) true out dd =
      cleanLoop r zs false (w.reverse ++ out) dd := by
  induction w generalizing out with
  | nil => simp [cleanLoop]
  | cons x w ih =>
    simp only [List.mem_cons, not_or] at hw
    have hx : ¬ (x = '/') := fun h => hw.1 h.symm
    rw [List.cons_append, cleanLoop, if_neg hx, ih _ hw.2]
    simp

/-- At word start in a rooted clean (with `dotdot = 1`), a good component is
never mistaken for `"."`, `".."` or a separator: the default branch runs,
prepending a separator (unless the buffer is just the root) and entering
word-copying mode. -/
theorem cleanLoop_word_start (c0 : Char) (c' rest out : List Char)
    (hns : '/' ∉ c0 :: c') (hdot : c0 :: c' ≠ ['.']) (hddot : c0 :: c' ≠ ['.', '.'])
    (hrest : rest = [] ∨ rest.head? = some '/') :
    cleanLoop true (c0 :: (c' ++ rest)) false out 1 =
      cleanLoop true (c' ++ rest) true
        (c0 :: (if out.length = 1 then out else '/' :: out)) 1 := by
  simp only [List.mem_cons, not_or] at hns
  have h1 : ¬ (c0 = '/') := fun h => hns.1 h.symm
  cases c' with
  | nil =>
    have hc0 : ¬ (c0 = '.') := fun h => hdot (by rw [h])
    rcases hrest with rfl | hh
    · rw [List.nil_append, cleanLoop.eq_3, if_neg h1,
        if_neg (fun h => hc0 h.1), if_neg (fun h => hc0 h.1)]
      by_cases h : out.length = 1 <;> simp [h, cleanLoop]
    · cases rest with
      | nil => simp at hh
      | cons r0 zs =>
        simp only [List.head?_cons, Option.some.injEq] at hh
        subst hh
        rw [List.nil_append, cleanLoop.eq_4, if_neg h1,
          if_neg (fun h => hc0 h.1), if_neg (fun h => hc0 h.1)]
        by_cases h : out.length = 1 <;> simp [h, cleanLoop]
  | cons d c'' =>
    have hd : ¬ (d = '/') := fun h => hns.2 (by simp [h])
    have h2 : ¬ (c0 = '.' ∧ (d :: (c'' ++ rest) = [] ∨
        (d :: (c'' ++ rest)).head? = some '/')) := by
      rintro ⟨rfl, h | h⟩
      · simp at h
      · simp only [List.head?_cons, Option.some.injEq] at h
        exact hd h
    have h3 : ¬ (c0 = '.' ∧ (d :: (c'' ++ rest)).head? = some '.' ∧
        ((d :: (c'' ++ rest)).tail = [] ∨
          (d :: (c'' ++ rest)).tail.head? = some '/')) := by
      rintro ⟨rfl, h, htl⟩
      simp only [List.head?_cons, Option.some.injEq] at h
      subst h
      cases c'' with
      | nil => exact hddot rfl
      | cons e c''' =>
        have he : ¬ (e = '/') := fun h => hns.2 (by simp [h])
        rcases htl with htl | htl
        · simp at htl
        · simp only [List.cons_append, List.tail_cons, List.head?_cons,
            Option.some.injEq] at htl
          exact he htl
    rw [List.cons_append, cleanLoop.eq_4, if_neg h1, if_neg h2, if_neg h3]
    by_cases h : out.length = 1 <;> simp [h]

/-- Processing a single good component that ends the input. -/
theorem cleanLoop_root_word_end (c out : List Char) (hc : goodComp c) :
    cleanLoop true c false out 1 =
      c.reverse ++ (if out.length = 1 then out else '/' :: out) := by
  obtain ⟨hne, hns, hdot, hddot⟩ := hc
  cases c with
  | nil => exact absurd rfl hne
  | cons c0 c' =>
    have := cleanLoop_word_start c0 c' [] out hns hdot hddot (Or.inl rfl)
    rw [List.append_nil] at this
    rw [this, cleanLoop_inWord_end _ _ _ _ (fun h => hns (by simp [h]))]
    simp

/-- Processing a single good component followed by a separator. -/
theorem cleanLoop_root_word_sep (c zs out : List Char) (hc : goodComp c) :
    cleanLoop true (c ++ '/' :: zs) false out 1 =
      cleanLoop true zs false
        (c.reverse ++ (if out.length = 1 then out else '/' :: out)) 1 := by
  obtain ⟨hne, hns, hdot, hddot⟩ := hc
  cases c with
  | nil => exact absurd rfl hne
  | cons c0 c' =>
    rw [List.cons_append,
      cleanLoop_word_start c0 c' ('/' :: zs) out hns hdot hddot (Or.inr rfl),
      cleanLoop_inWord_sep _ _ _ _ _ (fun h => hns (by simp [h]))]
    simp

/-- The accumulated effect of `cleanLoop` over a list of good components:
each component is appended reversed, preceded by a separator unless the
buffer is still just the root separator. -/
def accComps : List (List Char) → List Char → List Char
  | [], out => out
  | c :: cs, out => accComps cs (c.reverse ++ (if out.length = 1 then out else '/' :: out))

/-- `cleanLoop` on joined good components (with or without a trailing
separator) accumulates exactly the components. -/
theorem cleanLoop_comps (cs : List (List Char)) (out : List Char) (t : Bool)
    (hcs : ∀ c ∈ cs, goodComp c) :
    cleanLoop true (joinSlash cs ++ (if t then ['/'] else [])) false out 1 =
      accComps cs out := by
  induction cs generalizing out with
  | nil => cases t <;> simp [joinSlash, cleanLoop, accComps]
  | cons c cs ih =>
    have hc : goodComp c := hcs c (by simp)
    by_cases hcs2 : cs = []
    · subst hcs2
      cases t with
      | false =>
        rw [show (if (false : Bool) = true then ['/'] else ([] : List Char)) = [] from rfl,
          show joinSlash [c] = c from rfl, List.append_nil,
          cleanLoop_root_word_end c out hc]
        rfl
      | true =>
        rw [show (if (true : Bool) = true then ['/'] else ([] : List Char)) = '/' :: [] from rfl,
          show joinSlash [c] = c from rfl,
          cleanLoop_root_word_sep c [] out hc]
        simp [cleanLoop, accComps]
    · rw [joinSlash_cons c cs hcs2, List.append_assoc, List.cons_append,
        cleanLoop_root_word_sep c _ out hc,
        ih _ (fun x hx => hcs x (by simp [hx]))]
      rfl

/-- Closed form of `accComps` once the buffer has more than the root in it. -/
theorem accComps_eq (cs : List (List Char)) (out : List Char)
    (hcs : ∀ c ∈ cs, c ≠ []) (hout : 2 ≤ out.length) (hne : cs ≠ []) :
    accComps cs out = (joinSlash cs).reverse ++ '/' :: out := by
  induction cs generalizing out with
  | nil => exact absurd rfl hne
  | cons c cs ih =>
    have hlen : ¬ (out.length = 1) := by omega
    by_cases h : cs = []
    · subst h
      simp only [accComps, joinSlash, if_neg hlen]
    · rw [show accComps (c :: cs) out =
        accComps cs (c.reverse ++ (if out.length = 1 then out else '/' :: out)) from rfl,
        if_neg hlen]
      have hlen2 : 2 ≤ (c.reverse ++ '/' :: out).length := by
        simp only [List.length_append, List.length_reverse, List.length_cons]
        omega
      rw [ih _ (fun x hx => hcs x (by simp [hx])) hlen2 h, joinSlash_cons c cs h]
      simp

/-- Unfolding `clean` on a rooted path. -/
theorem clean_rooted (X : List Char) :
    clean ('/' :: X) =
      if (cleanLoop true X false ['/'] 1).length = 0 then ['.']
      else (cleanLoop true X false ['/'] 1).reverse := rfl

/-- The final read-out of the accumulated buffer over good components. -/
theorem accComps_root (cs : List (List Char)) (hcs : ∀ c ∈ cs, goodComp c) :
    (if (accComps cs ['/']).length = 0 then ['.'] else (accComps cs ['/']).reverse) =
      '/' :: joinSlash cs := by
  cases cs with
  | nil => rfl
  | cons c cs2 =>
    have hc : goodComp c := hcs c (by simp)
    rw [show accComps (c :: cs2) ['/'] = accComps cs2 (c.reverse ++ ['/']) from rfl]
    cases cs2 with
    | nil =>
      rw [show accComps [] (c.reverse ++ ['/']) = c.reverse ++ ['/'] from rfl]
      rw [if_neg (by simp)]
      simp [joinSlash]
    | cons d ds =>
      have hlen : 2 ≤ (c.reverse ++ ['/']).length := by
        cases c with
        | nil => exact absurd rfl hc.1
        | cons x xs => simp
      rw [accComps_eq (d :: ds) _ (fun x hx => ((hcs x (by simp [hx])).1)) hlen (by simp),
        joinSlash_cons c (d :: ds) (by simp)]
      rw [if_neg (by simp)]
      simp

/-- `filepath.Clean` is the identity on an absolute path in cleaned form. -/
theorem clean_absPath (cs : List (List Char)) (hcs : ∀ c ∈ cs, goodComp c) :
    clean (absPath cs) = absPath cs := by
  have h := cleanLoop_comps cs ['/'] false hcs
  simp only [Bool.false_eq_true, if_false, List.append_nil] at h
  rw [show absPath cs = '/' :: joinSlash cs from rfl, clean_rooted, h]
  exact accComps_root cs hcs

/-- `filepath.Clean` strips the trailing separator from an absolute path in
cleaned form. -/
theorem clean_absPath_slash (cs : List (List Char)) (hcs : ∀ c ∈ cs, goodComp c) :
    clean (absPath cs ++ ['/']) = absPath cs := by
  have h := cleanLoop_comps cs ['/'] true hcs
  simp only [if_true] at h
  rw [show absPath cs ++ ['/'] = '/' :: (joinSlash cs ++ ['/']) from rfl, clean_rooted, h]
  exact accComps_root cs hcs

/-- The components of a built absolute path are recovered exactly. -/
theorem pathComponents_absPath (cs : List (List Char)) (hcs : ∀ c ∈ cs, goodComp c) :
    pathComponents (absPath cs) = cs := by
  rw [show pathComponents (absPath cs) =
    (if joinSlash cs = [] then [] else splitSlash (joinSlash cs)) from rfl]
  cases cs with
  | nil => rfl
  | cons c cs2 =>
    rw [if_neg (joinSlash_ne_nil c cs2 (hcs c (by simp)).1)]
    exact splitSlash_joinSlash _ (fun x hx => (hcs x hx).2.1) (by simp)

/-- The scanning loop consumes a shared component prefix entirely. -/
theorem relScan_app (xs ys : List (List Char)) : relScan xs (xs ++ ys) = ([], ys) := by
  induction xs with
  | nil =>
    cases ys with
    | nil => rfl
    | cons y ys => rfl
  | cons x xs ih => simpa [relScan] using ih

/-- Two built absolute paths with distinct good component lists differ. -/
theorem absPath_ne_extend (rcs more : List (List Char))
    (hr : ∀ c ∈ rcs, goodComp c) (hm : ∀ c ∈ more, goodComp c) (hne : more ≠ []) :
    absPath (rcs ++ more) ≠ absPath rcs := by
  intro h
  have h2 := congrArg pathComponents h
  rw [pathComponents_absPath rcs hr,
    pathComponents_absPath (rcs ++ more) (by
      intro x hx
      rcases List.mem_append.mp hx with hx | hx
      · exact hr x hx
      · exact hm x hx)] at h2
  have h3 := congrArg List.length h2
  simp only [List.length_append] at h3
  cases more with
  | nil => exact hne rfl
  | cons m ms => simp at h3

/-- `filepath.Rel` of a cleaned absolute directory (with trailing separator)
against itself as base yields `"."`. -/
theorem rel_self_slash (rcs : List (List Char)) (hr : ∀ c ∈ rcs, goodComp c) :
    rel (absPath rcs) (absPath rcs ++ ['/']) = some ['.'] := by
  unfold rel
  rw [clean_absPath rcs hr, clean_absPath_slash rcs hr, if_pos rfl]

/-- `filepath.Rel` of the same cleaned absolute path against itself. -/
theorem rel_self (rcs : List (List Char)) (hr : ∀ c ∈ rcs, goodComp c) :
    rel (absPath rcs) (absPath rcs) = some ['.'] := by
  unfold rel
  rw [clean_absPath rcs hr, if_pos rfl]

/-- `filepath.Rel` from a cleaned absolute base to a strictly deeper cleaned
absolute directory (with trailing separator): the shared components are
consumed and the remaining target components are joined. -/
theorem rel_deeper (rcs : List (List Char)) (sub : List Char) (ds : List (List Char))
    (hr : ∀ c ∈ rcs, goodComp c) (hsub : goodComp sub) (hds : ∀ c ∈ ds, goodComp c) :
    rel (absPath rcs) (absPath (rcs ++ sub :: ds) ++ ['/']) =
      some (joinSlash (sub :: ds)) := by
  have hall : ∀ c ∈ rcs ++ sub :: ds, goodComp c := by
    intro x hx
    rcases List.mem_append.mp hx with hx | hx
    · exact hr x hx
    · rcases List.mem_cons.mp hx with rfl | hx
      · exact hsub
      · exact hds x hx
  unfold rel
  rw [clean_absPath rcs hr, clean_absPath_slash _ hall,
    if_neg (absPath_ne_extend rcs (sub :: ds) hr
      (fun x hx => hall x (List.mem_append_right _ hx)) (by simp)),
    if_neg (by simp [absPath] : ¬ (absPath rcs = ['.']))]
  rw [if_neg (by simp [absPath])]
  rw [pathComponents_absPath rcs hr, pathComponents_absPath _ hall, relScan_app]
  simp

/-- Splitting a built absolute path at its final component. -/
theorem filepathSplit_absPath (cs : List (List Char)) (fname : List Char)
    (hf : '/' ∉ fname) :
    filepathSplit (absPath (cs ++ [fname])) =
      ((if cs = [] then [] else absPath cs) ++ ['/'], fname) := by
  cases cs with
  | nil =>
    rw [show absPath ([] ++ [fname]) = [] ++ '/' :: fname from rfl,
      filepathSplit_app [] fname hf, if_pos rfl]
  | cons c cs2 =>
    rw [show absPath ((c :: cs2) ++ [fname]) =
        '/' :: joinSlash ((c :: cs2) ++ [fname]) from rfl,
      joinSlash_snoc (c :: cs2) fname (by simp),
      show '/' :: (joinSlash (c :: cs2) ++ '/' :: fname) =
        absPath (c :: cs2) ++ '/' :: fname from by simp [absPath],
      filepathSplit_app _ fname hf, if_neg (by simp)]

/-- Direct children of the root classify to their bare filename. -/
theorem gwc_direct_child (rcs : List (List Char)) (fname : List Char)
    (hr : ∀ c ∈ rcs, goodComp c) (hf2 : '/' ∉ fname) :
    getWatchComponent (absPath (rcs ++ [fname])) (absPath rcs) = fname := by
  unfold getWatchComponent
  rw [filepathSplit_absPath rcs fname hf2]
  by_cases h : rcs = []
  · subst h
    rw [show (if ([] : List (List Char)) = [] then ([] : List Char)
        else absPath []) ++ ['/'] = absPath [] from rfl]
    show (if (rel (absPath []) (absPath [])).getD [] = ['.'] then fname
      else (splitSlash ((rel (absPath []) (absPath [])).getD [])).headD []) = fname
    rw [rel_self [] (by simp)]
    simp
  · rw [if_neg h]
    show (if (rel (absPath rcs) (absPath rcs ++ ['/'])).getD [] = ['.'] then fname
      else (splitSlash ((rel (absPath rcs) (absPath rcs ++ ['/'])).getD [])).headD []) =
      fname
    rw [rel_self_slash rcs hr]
    simp

/-- Paths in a subdirectory classify to the first-level subdirectory name. -/
theorem gwc_subdirectory (rcs : List (List Char)) (sub : List Char)
    (ds : List (List Char)) (fname : List Char)
    (hr : ∀ c ∈ rcs, goodComp c) (hsub : goodComp sub)
    (hds : ∀ c ∈ ds, goodComp c) (hf2 : '/' ∉ fname) :
    getWatchComponent (absPath (rcs ++ sub :: (ds ++ [fname]))) (absPath rcs) = sub := by
  have hne_dot : joinSlash (sub :: ds) ≠ ['.'] := by
    cases ds with
    | nil => exact hsub.2.2.1
    | cons d ds2 =>
      rw [joinSlash_cons sub (d :: ds2) (by simp)]
      intro h
      have h2 := congrArg List.length h
      have h3 : 0 < sub.length := List.length_pos.mpr hsub.1
      simp only [List.length_append, List.length_cons, List.length_nil] at h2
      omega
  unfold getWatchComponent
  rw [show rcs ++ sub :: (ds ++ [fname]) = (rcs ++ sub :: ds) ++ [fname] from by simp,
    filepathSplit_absPath (rcs ++ sub :: ds) fname hf2,
    if_neg (by simp : ¬ (rcs ++ sub :: ds = []))]
  show (if (rel (absPath rcs) (absPath (rcs ++ sub :: ds) ++ ['/'])).getD [] = ['.']
      then fname
    else (splitSlash ((rel (absPath rcs)
      (absPath (rcs ++ sub :: ds) ++ ['/'])).getD [])).headD []) = sub
  rw [rel_deeper rcs sub ds hr hsub hds]
  rw [show (some (joinSlash (sub :: ds))).getD [] = joinSlash (sub :: ds) from rfl,
    if_neg hne_dot]
  cases ds with
  | nil =>
    rw [show joinSlash [sub] = sub from rfl, splitSlash_nosep sub hsub.2.1]
    rfl
  | cons d ds2 =>
    rw [joinSlash_cons sub (d :: ds2) (by simp), splitSlash_app _ _ hsub.2.1]
    rfl

/-- C5: for every root `R` given by well-formed (cleaned) components and
every path under `R`, the classifier returns the bare final name component
when the path is a direct child of `R` (first conjunct, path `R/fname`),
and otherwise the first path segment of the path's directory relative to
`R` (second conjunct, path `R/sub/ds.../fname` yields `sub`); in particular
`classify(R/foo.txt, R) = "foo.txt"` and
`classify(R/sub/deep/file.bin, R) = "sub"`.  The embedding
`getWatchComponent` is a total pure function of `(path, basePath)` alone,
so determinism and absence of hidden state hold by construction. -/
theorem c5_classifier (rcs ds : List (List Char)) (sub fname : List Char)
    (hr : ∀ c ∈ rcs, goodComp c) (hsub : goodComp sub)
    (hds : ∀ c ∈ ds, goodComp c) (hf : '/' ∉ fname) :
    getWatchComponent (absPath (rcs ++ [fname])) (absPath rcs) = fname ∧
    getWatchComponent (absPath (rcs ++ sub :: (ds ++ [fname]))) (absPath rcs) = sub :=
  ⟨gwc_direct_child rcs fname hr hf,
   gwc_subdirectory rcs sub ds fname hr hsub hds hf⟩

/-- Witness for `c5_classifier` with root `/src`: `/src/foo.txt` classifies
to `foo.txt` and `/src/sub/deep/file.bin` classifies to `sub`. -/
theorem c5_classifier_witness :
    getWatchComponent (absPath (["src".data] ++ ["foo.txt".data]))
      (absPath ["src".data]) = "foo.txt".data ∧
    getWatchComponent
      (absPath (["src".data] ++ "sub".data :: (["deep".data] ++ ["file.bin".data])))
      (absPath ["src".data]) = "sub".data :=
  ⟨(c5_classifier ["src".data] [] "sub".data "foo.txt".data
      (by decide) (by decide) (by decide) (by decide)).1,
   (c5_classifier ["src".data] ["deep".data] "sub".data "file.bin".data
      (by decide) (by decide) (by decide) (by decide)).2⟩
